import Mathlib

/- Formal model of `app.py` (DC-5 filter tracker).

   Digit strings are modelled as `List ℕ` (one entry per character); a
   "straight" is a 5-entry digit list and a "box" is its digit-sorted form.
   The Python `eval` of a compiled filter expression in the per-candidate
   context is modelled as a function `List ℕ → Option Bool` of the
   candidate's digit list (the seed-derived context entries are fixed for a
   session and are absorbed into the function); `none` models a raised
   exception.  Python floats are modelled as exact rationals. -/

namespace App

/-! ### Sorted sets of digit strings

Python sorts equal-length digit strings lexicographically and the app
collects straights/boxes in `set`s that are then `sorted`.  `lexLt` is the
strict lexicographic order on digit lists, `insertUniq` inserts into a
sorted duplicate-free list, and `setSorted` realizes `sorted(set(l))`. -/

def lexLt : List ℕ → List ℕ → Bool
  | [], [] => false
  | [], _ :: _ => true
  | _ :: _, [] => false
  | a :: as, b :: bs => a < b || (a == b && lexLt as bs)

def insertUniq (x : List ℕ) : List (List ℕ) → List (List ℕ)
  | [] => [x]
  | y :: ys => if lexLt x y then x :: y :: ys else if x = y then y :: ys else y :: insertUniq x ys

def setSorted (l : List (List ℕ)) : List (List ℕ) :=
  l.foldl (fun acc x => insertUniq x acc) []

/-- `''.join(sorted(s))`: the digits of `s` in ascending order (the box form
of a straight), by a stable sort as in Python. -/
def sortDigits (s : List ℕ) : List ℕ := List.insertionSort (· ≤ ·) s

/-! ### Pair parsing and generation (app.py lines 48-71) -/

/-- `_unique_permutations` (app.py line 53): all distinct orderings of the
five characters of `s`; the `seen` set is modelled by removing duplicates. -/
def uniquePerms (s : List ℕ) : List (List ℕ) := s.permutations.dedup

/-- `generate_permutation_pool` (app.py line 61).  `seed` is the seed's digit
list and the pair-group entries are two-digit pairs, so the base
`sd + a + b` is always exactly 5 digits and the source's
`len(base)==5 and base.isdigit()` guard always passes. -/
def generate_permutation_pool (seed : List ℕ) (group_a group_b : List (ℕ × ℕ)) :
    List (List ℕ) :=
  setSorted (seed.flatMap fun sd => group_a.flatMap fun a => group_b.flatMap fun b =>
    uniquePerms [sd, a.1, a.2, b.1, b.2])

/-! ### Percentile zones (app.py lines 73-110) -/

/-- `_parse_zones` (app.py line 76) after the character-level splitting of the
zone string into numeric pairs: keep the pairs with `lo <= hi`. -/
def parse_zones (parts : List (ℤ × ℤ)) : List (ℤ × ℤ) :=
  parts.filter fun p => decide (p.1 ≤ p.2)

/-- The numeric pairs written in the constant `PRIMARY_PERCENTILE_ZONES`
string `"0-26,30-35,36-43,50-60,60-70,80-83,93-94"` (app.py line 74). -/
def PRIMARY_PERCENTILE_ZONES : List (ℤ × ℤ) :=
  [(0, 26), (30, 35), (36, 43), (50, 60), (60, 70), (80, 83), (93, 94)]

def ZONES : List (ℤ × ℤ) := parse_zones PRIMARY_PERCENTILE_ZONES

/-- `_in_any_zone` (app.py line 109), parameterized by the zone list. -/
def in_any_zone (zones : List (ℤ × ℤ)) (pct : ℤ) : Bool :=
  zones.any fun z => decide (z.1 ≤ pct) && decide (pct ≤ z.2)

/-! ### Percentile ranks (app.py lines 91-107)

The source argsorts the index list by value with a stable sort, then scans
maximal runs of equal values, assigning each run the percentile of its
average 0-indexed rank.  Here the `(original index, value)` pairs are sorted
by value with the stable `insertionSort`, scanned by `runPct`, and the rank
of each original position is read back off the resulting association. -/

/-- `avg / max(n-1,1) * 100.0` with `avg = (i+j)/2.0` for a run occupying
0-indexed sorted ranks `i..j` (app.py lines 102-103). -/
def pctOf (n i j : ℕ) : ℚ :=
  ((i : ℚ) + (j : ℚ)) / 2 / ((max (n - 1) 1 : ℕ) : ℚ) * 100

/-- Comparison key of the argsort in `_percentile_ranks`: compare by value
(the sort is stable, so equal values keep index order as in Python). -/
def valLe (p q : ℕ × ℤ) : Prop := p.2 ≤ q.2

instance : DecidableRel valLe := fun p q => inferInstanceAs (Decidable (p.2 ≤ q.2))

instance : IsTotal (ℕ × ℤ) valLe := ⟨fun p q => le_total p.2 q.2⟩

instance : IsTrans (ℕ × ℤ) valLe := ⟨fun _ _ _ h h' => le_trans h h'⟩

/-- The run scan (app.py lines 97-106): `l` is the remaining sorted
`(index, value)` list, `k` the sorted rank of its first element. -/
def runPct (n : ℕ) : List (ℕ × ℤ) → ℕ → List (ℕ × ℚ)
  | [], _ => []
  | (idx, v) :: rest, k =>
    (((idx, v) :: rest).takeWhile fun p => p.2 == v).map
        (fun p => (p.1, pctOf n k (k + (((idx, v) :: rest).takeWhile fun p => p.2 == v).length - 1)))
      ++ runPct n (((idx, v) :: rest).dropWhile fun p => p.2 == v)
          (k + (((idx, v) :: rest).takeWhile fun p => p.2 == v).length)
termination_by l _ => l.length
decreasing_by
  simp only [List.dropWhile_cons, beq_self_eq_true, if_pos]
  exact Nat.lt_succ_of_le (List.dropWhile_sublist _).length_le

/-- `_percentile_ranks` (app.py line 91), on integer inputs (both call sites
pass lists of digit sums). -/
def percentile_ranks (values : List ℤ) : List ℚ :=
  let assigned := runPct values.length (List.insertionSort valLe values.enum) 0
  (List.range values.length).map fun i => (assigned.lookup i).getD 0

/-- Number of entries of `values` strictly below `v`: the 0-indexed sorted
rank at which the run of `v` starts. -/
def countLt (values : List ℤ) (v : ℤ) : ℕ := values.countP fun w => decide (w < v)

/-- Number of entries of `values` equal to `v`: the length of the run of `v`. -/
def countEq (values : List ℤ) (v : ℤ) : ℕ := values.countP fun w => w == v

/-- `countLt` on `(index, value)` pairs. -/
def countPLt (l : List (ℕ × ℤ)) (v : ℤ) : ℕ := l.countP fun q => decide (q.2 < v)

/-- `countEq` on `(index, value)` pairs. -/
def countPEq (l : List (ℕ × ℤ)) (v : ℤ) : ℕ := l.countP fun q => q.2 == v

/-! ### Full enumeration of boxes (app.py lines 113-122) -/

/-- Helper realizing one level of `combinations_with_replacement`: given the
enumeration `f` for one fewer choices, walk the suffixes of the digit list. -/
def cwrAux (f : List ℕ → List (List ℕ)) : List ℕ → List (List ℕ)
  | [] => []
  | x :: xs => (f (x :: xs)).map (fun ys => x :: ys) ++ cwrAux f xs

/-- `combinations_with_replacement(l, k)`: all non-decreasing `k`-element
selections from the sorted list `l`, in lexicographic order. -/
def cwr : ℕ → List ℕ → List (List ℕ)
  | 0, _ => [[]]
  | k + 1, l => cwrAux (cwr k) l

/-- `all_boxes_full_enumeration` (app.py line 113):
`combinations_with_replacement(range(10), 5)` joined to digit strings. -/
def all_boxes_full_enumeration : List (List ℕ) := cwr 5 (List.range 10)

/-- Python `int(round(p))`: round half to even. -/
def pyRound (q : ℚ) : ℤ :=
  if q - (⌊q⌋ : ℚ) < 1 / 2 then ⌊q⌋
  else if (1 : ℚ) / 2 < q - (⌊q⌋ : ℚ) then ⌊q⌋ + 1
  else if 2 ∣ ⌊q⌋ then ⌊q⌋ else ⌊q⌋ + 1

/-- `build_global_box_percentiles` (app.py line 116): the association from
each box of the 2002-box universe to `int(round(p))` of its digit-sum
percentile over that universe. -/
def build_global_box_percentiles : List (List ℕ × ℤ) :=
  all_boxes_full_enumeration.zip
    ((percentile_ranks (all_boxes_full_enumeration.map fun b => (b.sum : ℤ))).map pyRound)

/-- `GLOBAL_BOX_PCT.get(box, 0)` (app.py line 214). -/
def GLOBAL_BOX_PCT (b : List ℕ) : ℤ := (build_global_box_percentiles.lookup b).getD 0

/-- The Primary Percentile stage (app.py lines 207-216): keep a straight if
its local-pool rounded percentile, or the precomputed global rounded
percentile of its box form, lands in a zone; the result is
`sorted(local_keep | global_keep)`. -/
def straights_after_ppf (zones : List (ℤ × ℤ)) (straights : List (List ℕ)) : List (List ℕ) :=
  let local_pcts := percentile_ranks (straights.map fun s => (s.sum : ℤ))
  let local_keep :=
    ((straights.zip local_pcts).filter fun p => in_any_zone zones (pyRound p.2)).map Prod.fst
  let global_keep := straights.filter fun s => in_any_zone zones (GLOBAL_BOX_PCT (sortDigits s))
  setSorted (local_keep ++ global_keep)

/-! ### The elimination engine (app.py lines 246-317) -/

/-- One loaded filter row.  `applicable_code` and `expr_code` model `eval` of
the two compiled expressions in the per-candidate context; `none` models a
raised exception. -/
structure Filt where
  id : String
  name : String
  applicable_code : List ℕ → Option Bool
  expr_code : List ℕ → Option Bool
  enabled_default : Bool

/-- Does this filter eliminate candidate `c`?  `eval(applicable) and
eval(expr)` with any exception treated as no match (app.py lines 255-262,
283-287, 307-313 all use this same convention). -/
def matchesF (f : Filt) (c : List ℕ) : Bool :=
  match f.applicable_code c with
  | some true => (f.expr_code c).getD false
  | _ => false

/-- The inner loop of the survivorship pass (app.py lines 251-262): scan the
filters in list order; an inactive filter, a false or failing guard, and a
false or failing elimination expression all fall through to the next filter;
the first full match reports that filter's name (`break`). -/
def scanFilters (active : String → Bool) (c : List ℕ) : List Filt → Option String
  | [] => none
  | f :: fs =>
    if active f.id then
      match f.applicable_code c with
      | some true =>
        match f.expr_code c with
        | some true => some f.name
        | _ => scanFilters active c fs
      | _ => scanFilters active c fs
    else scanFilters active c fs

/-- The survivorship pass (app.py lines 246-264): first component is the
`eliminated` association (combo, eliminating filter's name) in iteration
order, second the `survivors` list (the `for`-`else`). -/
def survivorship (fs : List Filt) (active : String → Bool) :
    List (List ℕ) → List (List ℕ × String) × List (List ℕ)
  | [] => ([], [])
  | c :: rest =>
    let res := survivorship fs active rest
    match scanFilters active c fs with
    | some nm => ((c, nm) :: res.1, res.2)
    | none => (res.1, c :: res.2)

/-- Initial elimination count (app.py lines 278-287): over the full box pool,
for every loaded filter, independent of the active flags. -/
def initCount (f : Filt) (boxes : List (List ℕ)) : ℕ := boxes.countP fun c => matchesF f c

/-- The sort key order of `sorted_filters` (app.py line 290): the key is the
pair `(init_count == 0, -init_count)`, so zero-impact filters sort last and
the rest by descending initial count. -/
def dispLe (boxes : List (List ℕ)) (f g : Filt) : Prop :=
  (if initCount f boxes = 0 then (1 : ℕ) else 0) < (if initCount g boxes = 0 then 1 else 0) ∨
    ((if initCount f boxes = 0 then (1 : ℕ) else 0) = (if initCount g boxes = 0 then 1 else 0) ∧
      initCount g boxes ≤ initCount f boxes)

instance (boxes : List (List ℕ)) : DecidableRel (dispLe boxes) := fun _f _g =>
  inferInstanceAs (Decidable (_ ∨ _))

/-- `sorted_filters` and `display_filters` (app.py lines 290-291): stable sort
by the display key, and when `hide_zero` is set only the filters with a
positive initial count remain. -/
def displayFilters (fs : List Filt) (boxes : List (List ℕ)) (hide_zero : Bool) : List Filt :=
  let sorted_filters := List.insertionSort (dispLe boxes) fs
  if hide_zero then sorted_filters.filter fun f => decide (0 < initCount f boxes)
  else sorted_filters

/-- The dynamic elimination sequence (app.py lines 296-317): for each
displayed filter in order, if active, count and remove the remaining
candidates it matches; an inactive filter leaves the pool unchanged with
count 0.  Returns the per-filter `(id, dynamic count)` list and the final
working pool. -/
def dynamicPass (active : String → Bool) :
    List Filt → List (List ℕ) → List (String × ℕ) × List (List ℕ)
  | [], pool => ([], pool)
  | f :: fs, pool =>
    let dc := if active f.id then pool.countP (fun c => matchesF f c) else 0
    let pool' := if active f.id then pool.filter (fun c => !matchesF f c) else pool
    let res := dynamicPass active fs pool'
    ((f.id, dc) :: res.1, res.2)

/-- Result of the specific-combo check (app.py lines 268-275). -/
inductive ComboStatus where
  | eliminatedBy : String → ComboStatus
  | survived : ComboStatus
  | notFound : ComboStatus
deriving DecidableEq

/-- The specific-combo check (app.py lines 268-275): normalize the checked
string by sorting its characters, then look it up first among the eliminated
combos, then among the survivors. -/
def checkStatus (eliminated : List (List ℕ × String)) (survivors : List (List ℕ))
    (combo : List ℕ) : ComboStatus :=
  let norm := sortDigits combo
  match eliminated.lookup norm with
  | some nm => ComboStatus.eliminatedBy nm
  | none => if norm ∈ survivors then ComboStatus.survived else ComboStatus.notFound

/-- The evaluation of `f` on candidate `c` raises a runtime exception (in the
guard, or in the elimination expression after the guard evaluated to true). -/
def raisesAt (f : Filt) (c : List ℕ) : Prop :=
  f.applicable_code c = none ∨ (f.applicable_code c = some true ∧ f.expr_code c = none)

/-- `f` with its evaluation at the single candidate `c₀` replaced by an
ordinary "predicate does not match" outcome, everything else unchanged. -/
def patchFalse (f : Filt) (c₀ : List ℕ) : Filt :=
  { f with applicable_code := fun c => if c = c₀ then some false else f.applicable_code c }

/-! ## Lemmas about sorted sets of digit strings -/

theorem lexLt_irrefl (a : List ℕ) : lexLt a a = false := by
  induction a with
  | nil => rfl
  | cons x xs ih => simp [lexLt, ih]

theorem lexLt_trans : ∀ {a b c : List ℕ},
    lexLt a b = true → lexLt b c = true → lexLt a c = true
  | [], _ :: _, _ :: _, _, _ => rfl
  | x :: xs, y :: ys, z :: zs, hab, hbc => by
    simp only [lexLt, Bool.or_eq_true, Bool.and_eq_true, beq_iff_eq,
      decide_eq_true_eq] at hab hbc ⊢
    rcases hab with h1 | ⟨rfl, h1⟩
    · rcases hbc with h2 | ⟨rfl, _⟩
      · exact Or.inl (h1.trans h2)
      · exact Or.inl h1
    · rcases hbc with h2 | ⟨rfl, h2⟩
      · exact Or.inl h2
      · exact Or.inr ⟨rfl, lexLt_trans h1 h2⟩

theorem lexLt_total : ∀ {a b : List ℕ}, a ≠ b → lexLt a b = false → lexLt b a = true
  | [], [], hne, _ => absurd rfl hne
  | [], _ :: _, _, h => by simp [lexLt] at h
  | _ :: _, [], _, _ => rfl
  | x :: xs, y :: ys, hne, h => by
    simp only [lexLt, Bool.or_eq_false_iff, Bool.and_eq_false_iff, Bool.or_eq_true,
      Bool.and_eq_true, beq_iff_eq, decide_eq_true_eq, decide_eq_false_iff_not] at h ⊢
    obtain ⟨hxy, h2⟩ := h
    rcases Nat.lt_or_ge y x with hlt | hge
    · exact Or.inl hlt
    · have hx : x = y := le_antisymm hge (le_of_not_lt hxy)
      subst hx
      rcases h2 with h2 | h2
      · simp at h2
      · exact Or.inr ⟨rfl, lexLt_total (fun hEq => hne (by rw [hEq])) h2⟩

theorem mem_insertUniq {a x : List ℕ} : ∀ {l : List (List ℕ)},
    a ∈ insertUniq x l ↔ a = x ∨ a ∈ l := by
  intro l
  induction l with
  | nil => simp [insertUniq]
  | cons y ys ih =>
    by_cases h1 : lexLt x y = true
    · simp only [insertUniq, if_pos h1]
      simp
    · by_cases h2 : x = y
      · subst h2
        simp only [insertUniq, if_neg h1, if_pos rfl]
        simp
      · simp only [insertUniq, if_neg h1, if_neg h2]
        simp [ih]
        tauto

theorem pairwise_insertUniq {x : List ℕ} : ∀ {l : List (List ℕ)},
    l.Pairwise (fun p q => lexLt p q = true) →
    (insertUniq x l).Pairwise (fun p q => lexLt p q = true) := by
  intro l
  induction l with
  | nil => intro _; simp [insertUniq]
  | cons y ys ih =>
    intro h
    rw [List.pairwise_cons] at h
    obtain ⟨hy, hys⟩ := h
    by_cases h1 : lexLt x y = true
    · simp only [insertUniq, if_pos h1]
      refine List.pairwise_cons.2 ⟨?_, List.pairwise_cons.2 ⟨hy, hys⟩⟩
      intro z hz
      rcases List.mem_cons.1 hz with rfl | hz
      · exact h1
      · exact lexLt_trans h1 (hy z hz)
    · by_cases h2 : x = y
      · subst h2
        simp only [insertUniq, if_neg h1, if_pos rfl]
        exact List.pairwise_cons.2 ⟨hy, hys⟩
      · simp only [insertUniq, if_neg h1, if_neg h2]
        refine List.pairwise_cons.2 ⟨?_, ih hys⟩
        intro z hz
        rcases mem_insertUniq.1 hz with rfl | hz
        · exact lexLt_total h2 (Bool.eq_false_iff.2 h1)
        · exact hy z hz

theorem mem_foldl_insertUniq (l : List (List ℕ)) :
    ∀ (acc : List (List ℕ)) (a : List ℕ),
      a ∈ l.foldl (fun acc x => insertUniq x acc) acc ↔ a ∈ acc ∨ a ∈ l := by
  induction l with
  | nil => simp
  | cons x xs ih =>
    intro acc a
    simp only [List.foldl_cons, ih, mem_insertUniq, List.mem_cons]
    tauto

theorem mem_setSorted {a : List ℕ} {l : List (List ℕ)} : a ∈ setSorted l ↔ a ∈ l := by
  simp [setSorted, mem_foldl_insertUniq]

theorem pairwise_foldl_insertUniq (l : List (List ℕ)) :
    ∀ acc : List (List ℕ), acc.Pairwise (fun p q => lexLt p q = true) →
      (l.foldl (fun acc x => insertUniq x acc) acc).Pairwise (fun p q => lexLt p q = true) := by
  induction l with
  | nil => intro acc h; exact h
  | cons x xs ih => intro acc h; exact ih _ (pairwise_insertUniq h)

theorem pairwise_setSorted (l : List (List ℕ)) :
    (setSorted l).Pairwise (fun p q => lexLt p q = true) :=
  pairwise_foldl_insertUniq l [] (List.Pairwise.nil)

theorem nodup_setSorted (l : List (List ℕ)) : (setSorted l).Nodup :=
  (pairwise_setSorted l).imp fun {a b} h => by
    intro hEq
    subst hEq
    rw [lexLt_irrefl] at h
    cases h

/-! ## Lemmas about the percentile ranker -/

theorem runPct_cons (n idx : ℕ) (v : ℤ) (rest : List (ℕ × ℤ)) (k : ℕ) :
    runPct n ((idx, v) :: rest) k =
      (((idx, v) :: rest).takeWhile fun p => p.2 == v).map
          (fun p => (p.1, pctOf n k (k + (((idx, v) :: rest).takeWhile fun p => p.2 == v).length - 1)))
        ++ runPct n (((idx, v) :: rest).dropWhile fun p => p.2 == v)
            (k + (((idx, v) :: rest).takeWhile fun p => p.2 == v).length) := by
  rw [runPct]

theorem dropWhile_val_lt {v : ℤ} : ∀ {l : List (ℕ × ℤ)},
    l.Pairwise valLe → (∀ p ∈ l, v ≤ p.2) →
    ∀ p ∈ l.dropWhile (fun q => q.2 == v), v < p.2 := by
  intro l
  induction l with
  | nil => simp
  | cons q ts ih =>
    intro hpw hle p hp
    rw [List.dropWhile_cons] at hp
    by_cases hq : (q.2 == v) = true
    · rw [if_pos hq] at hp
      exact ih (List.pairwise_cons.1 hpw).2
        (fun r hr => hle r (List.mem_cons_of_mem _ hr)) p hp
    · rw [if_neg hq] at hp
      have hqv : v < q.2 :=
        lt_of_le_of_ne (hle q (List.mem_cons_self _ _))
          (fun hEq => hq (beq_iff_eq.2 hEq.symm))
      rcases List.mem_cons.1 hp with rfl | hp
      · exact hqv
      · exact lt_of_lt_of_le hqv ((List.pairwise_cons.1 hpw).1 p hp)

theorem runPct_mem (n : ℕ) : ∀ (N : ℕ) (l : List (ℕ × ℤ)), l.length ≤ N →
    ∀ (k : ℕ), l.Pairwise valLe → ∀ p ∈ l,
      (p.1, pctOf n (k + countPLt l p.2) (k + countPLt l p.2 + countPEq l p.2 - 1))
        ∈ runPct n l k := by
  intro N
  induction N with
  | zero =>
    intro l hlen _ _ p hp
    rw [Nat.le_zero, List.length_eq_zero] at hlen
    subst hlen
    cases hp
  | succ N ih =>
    rintro (_ | ⟨⟨idx, v⟩, rest⟩) hlen k hpw p hp
    · cases hp
    · rw [runPct_cons]
      have hsplit :
          (((idx, v) :: rest).takeWhile fun q => q.2 == v)
            ++ (((idx, v) :: rest).dropWhile fun q => q.2 == v) = (idx, v) :: rest :=
        List.takeWhile_append_dropWhile _ _
      have hrunv : ∀ q ∈ ((idx, v) :: rest).takeWhile fun q => q.2 == v, q.2 = v :=
        fun q hq => beq_iff_eq.1 (List.mem_takeWhile_imp (l := (idx, v) :: rest) hq)
      have hvle : ∀ q ∈ (idx, v) :: rest, v ≤ q.2 := by
        intro q hq
        rcases List.mem_cons.1 hq with rfl | hq
        · exact le_refl _
        · exact (List.pairwise_cons.1 hpw).1 q hq
      have htlgt : ∀ q ∈ ((idx, v) :: rest).dropWhile fun q => q.2 == v, v < q.2 :=
        dropWhile_val_lt hpw hvle
      have hp' : p ∈ (((idx, v) :: rest).takeWhile fun q => q.2 == v)
          ++ (((idx, v) :: rest).dropWhile fun q => q.2 == v) := by
        rw [hsplit]; exact hp
      rcases List.mem_append.1 hp' with hpr | hpt
      · have hpv : p.2 = v := hrunv p hpr
        have hcLt0 : countPLt ((idx, v) :: rest) p.2 = 0 := by
          rw [countPLt, List.countP_eq_zero]
          intro q hq
          simp only [decide_eq_true_eq, not_lt]
          rw [hpv]
          exact hvle q hq
        have hcEqm : countPEq ((idx, v) :: rest) p.2 =
            (((idx, v) :: rest).takeWhile fun q => q.2 == v).length := by
          rw [countPEq]
          conv_lhs => rw [← hsplit]
          rw [List.countP_append]
          have h1 : (((idx, v) :: rest).takeWhile fun q => q.2 == v).countP
              (fun q => q.2 == p.2) = (((idx, v) :: rest).takeWhile fun q => q.2 == v).length :=
            List.countP_eq_length.2 (fun q hq => beq_iff_eq.2 ((hrunv q hq).trans hpv.symm))
          have h2 : (((idx, v) :: rest).dropWhile fun q => q.2 == v).countP
              (fun q => q.2 == p.2) = 0 :=
            List.countP_eq_zero.2 (fun q hq => by
              simp only [beq_iff_eq]
              rw [hpv]
              exact ne_of_gt (htlgt q hq))
          rw [h1, h2]
          omega
        rw [hcLt0, hcEqm]
        refine List.mem_append_left _ (List.mem_map.2 ⟨p, hpr, ?_⟩)
        simp
      · have hvp : v < p.2 := htlgt p hpt
        have hcLt : countPLt ((idx, v) :: rest) p.2 =
            (((idx, v) :: rest).takeWhile fun q => q.2 == v).length + countPLt
              (((idx, v) :: rest).dropWhile fun q => q.2 == v) p.2 := by
          rw [countPLt]
          conv_lhs => rw [← hsplit]
          rw [List.countP_append]
          have h1 : (((idx, v) :: rest).takeWhile fun q => q.2 == v).countP
              (fun q => decide (q.2 < p.2)) =
              (((idx, v) :: rest).takeWhile fun q => q.2 == v).length :=
            List.countP_eq_length.2 (fun q hq => by
              simp only [decide_eq_true_eq]
              rw [hrunv q hq]
              exact hvp)
          rw [h1, countPLt]
        have hcEq : countPEq ((idx, v) :: rest) p.2 =
            countPEq (((idx, v) :: rest).dropWhile fun q => q.2 == v) p.2 := by
          rw [countPEq]
          conv_lhs => rw [← hsplit]
          rw [List.countP_append]
          have h1 : (((idx, v) :: rest).takeWhile fun q => q.2 == v).countP
              (fun q => q.2 == p.2) = 0 :=
            List.countP_eq_zero.2 (fun q hq => by
              simp only [beq_iff_eq]
              rw [hrunv q hq]
              exact ne_of_lt hvp)
          rw [h1, countPEq, Nat.zero_add]
        have htl_pw : (((idx, v) :: rest).dropWhile fun q => q.2 == v).Pairwise valLe :=
          List.Pairwise.sublist (List.dropWhile_sublist _) hpw
        have htl_len : (((idx, v) :: rest).dropWhile fun q => q.2 == v).length ≤ N := by
          have hstep : ((idx, v) :: rest).dropWhile (fun q => q.2 == v) =
              rest.dropWhile (fun q => q.2 == v) := by
            rw [List.dropWhile_cons, if_pos (by simp)]
          rw [hstep]
          have := (List.dropWhile_sublist (l := rest) (fun q => q.2 == v)).length_le
          simp only [List.length_cons, Nat.succ_le_succ_iff] at hlen
          omega
        have ihp := ih (((idx, v) :: rest).dropWhile fun q => q.2 == v) htl_len
          (k + (((idx, v) :: rest).takeWhile fun q => q.2 == v).length) htl_pw p hpt
        refine List.mem_append_right _ ?_
        rw [hcLt, hcEq]
        have e1 : k + ((((idx, v) :: rest).takeWhile fun q => q.2 == v).length +
            countPLt (((idx, v) :: rest).dropWhile fun q => q.2 == v) p.2) =
            k + (((idx, v) :: rest).takeWhile fun q => q.2 == v).length +
              countPLt (((idx, v) :: rest).dropWhile fun q => q.2 == v) p.2 := by
          omega
        rw [e1]
        exact ihp

theorem runPct_fst (n : ℕ) : ∀ (N : ℕ) (l : List (ℕ × ℤ)), l.length ≤ N → ∀ (k : ℕ),
    (runPct n l k).map Prod.fst = l.map Prod.fst := by
  intro N
  induction N with
  | zero =>
    intro l hlen k
    rw [Nat.le_zero, List.length_eq_zero] at hlen
    subst hlen
    simp [runPct]
  | succ N ih =>
    rintro (_ | ⟨⟨idx, v⟩, rest⟩) hlen k
    · simp [runPct]
    · rw [runPct_cons, List.map_append, List.map_map]
      have htl_len : (((idx, v) :: rest).dropWhile fun q => q.2 == v).length ≤ N := by
        have hstep : ((idx, v) :: rest).dropWhile (fun q => q.2 == v) =
            rest.dropWhile (fun q => q.2 == v) := by
          rw [List.dropWhile_cons, if_pos (by simp)]
        rw [hstep]
        have := (List.dropWhile_sublist (l := rest) (fun q => q.2 == v)).length_le
        simp only [List.length_cons, Nat.succ_le_succ_iff] at hlen
        omega
      rw [ih _ htl_len]
      have hcomp : (Prod.fst ∘ fun p : ℕ × ℤ =>
          ((p.1 : ℕ), pctOf n k (k + (((idx, v) :: rest).takeWhile fun p => p.2 == v).length - 1)))
          = Prod.fst := by
        funext p
        rfl
      rw [hcomp, ← List.map_append, List.takeWhile_append_dropWhile]

theorem lookup_eq_some_of_mem :
    ∀ (l : List (ℕ × ℚ)) (kk : ℕ) (v : ℚ), (l.map Prod.fst).Nodup → (kk, v) ∈ l →
      l.lookup kk = some v := by
  intro l
  induction l with
  | nil => intro kk v _ h; cases h
  | cons a ts ih =>
    obtain ⟨a1, a2⟩ := a
    intro kk v hnd hmem
    rcases List.mem_cons.1 hmem with hEq | hmem'
    · rw [← hEq]
      simp [List.lookup]
    · have hkk : kk ≠ a1 := by
        intro hEq
        have hin : a1 ∈ ts.map Prod.fst := List.mem_map.2 ⟨(kk, v), hmem', by rw [hEq]⟩
        rw [List.map_cons, List.nodup_cons] at hnd
        exact hnd.1 hin
      have hbeq : (kk == a1) = false := by simpa using hkk
      simp only [List.lookup, hbeq]
      exact ih kk v (by rw [List.map_cons, List.nodup_cons] at hnd; exact hnd.2) hmem'

theorem countPLt_enum (values : List ℤ) (v : ℤ) :
    countPLt values.enum v = countLt values v := by
  rw [countPLt, countLt]
  conv_rhs => rw [← List.enum_map_snd values]
  rw [List.countP_map]
  rfl

theorem countPEq_enum (values : List ℤ) (v : ℤ) :
    countPEq values.enum v = countEq values v := by
  rw [countPEq, countEq]
  conv_rhs => rw [← List.enum_map_snd values]
  rw [List.countP_map]
  rfl

theorem length_percentile_ranks (values : List ℤ) :
    (percentile_ranks values).length = values.length := by
  simp [percentile_ranks]

theorem percentile_ranks_getD (values : List ℤ) (i : ℕ) (hi : i < values.length) :
    (percentile_ranks values).getD i 0 =
      pctOf values.length (countLt values (values.getD i 0))
        (countLt values (values.getD i 0) + countEq values (values.getD i 0) - 1) := by
  simp only [percentile_ranks]
  have hget : ((List.range values.length).map fun j =>
      ((runPct values.length (List.insertionSort valLe values.enum) 0).lookup j).getD 0).getD i 0
      = ((runPct values.length (List.insertionSort valLe values.enum) 0).lookup i).getD 0 := by
    rw [List.getD_eq_getElem _ _ (by simpa using hi), List.getElem_map, List.getElem_range]
  rw [hget]
  have hperm : (List.insertionSort valLe values.enum).Perm values.enum :=
    List.perm_insertionSort valLe values.enum
  have hmem : (i, values.getD i 0) ∈ List.insertionSort valLe values.enum := by
    refine hperm.mem_iff.2 ?_
    rw [List.mem_iff_getElem]
    refine ⟨i, by simpa using hi, ?_⟩
    rw [List.getElem_enum]
    rw [List.getD_eq_getElem _ _ hi]
  have hsorted : (List.insertionSort valLe values.enum).Pairwise valLe :=
    List.sorted_insertionSort valLe values.enum
  have hrun := runPct_mem values.length (List.insertionSort valLe values.enum).length
    (List.insertionSort valLe values.enum) (le_refl _) 0 hsorted (i, values.getD i 0) hmem
  simp only [Nat.zero_add] at hrun
  have hlt : countPLt (List.insertionSort valLe values.enum) (values.getD i 0) =
      countLt values (values.getD i 0) := by
    have h1 : countPLt (List.insertionSort valLe values.enum) (values.getD i 0) =
        countPLt values.enum (values.getD i 0) := hperm.countP_eq _
    rw [h1, countPLt_enum]
  have heqc : countPEq (List.insertionSort valLe values.enum) (values.getD i 0) =
      countEq values (values.getD i 0) := by
    have h1 : countPEq (List.insertionSort valLe values.enum) (values.getD i 0) =
        countPEq values.enum (values.getD i 0) := hperm.countP_eq _
    rw [h1, countPEq_enum]
  rw [hlt, heqc] at hrun
  have hkeys : ((runPct values.length (List.insertionSort valLe values.enum) 0).map
      Prod.fst).Nodup := by
    rw [runPct_fst values.length (List.insertionSort valLe values.enum).length _ (le_refl _)]
    have hpf : ((List.insertionSort valLe values.enum).map Prod.fst).Perm
        (values.enum.map Prod.fst) := hperm.map _
    rw [hpf.nodup_iff, List.enum_map_fst]
    exact List.nodup_range _
  rw [lookup_eq_some_of_mem _ i _ hkeys hrun]
  rfl

/-! ## Lemmas about the elimination engine -/

theorem bool_eq_of_iff {a b : Bool} (h : a = true ↔ b = true) : a = b := by
  cases a <;> cases b <;> simp_all

theorem scanFilters_cons (active : String → Bool) (c : List ℕ) (f : Filt) (fs : List Filt) :
    scanFilters active c (f :: fs) =
      if active f.id && matchesF f c then some f.name else scanFilters active c fs := by
  by_cases ha : active f.id
  · simp only [scanFilters, if_pos ha]
    cases happ : f.applicable_code c with
    | none => simp [matchesF, happ, ha]
    | some b =>
      cases b with
      | false => simp [matchesF, happ, ha]
      | true =>
        cases hex : f.expr_code c with
        | none => simp [matchesF, happ, hex, ha]
        | some b2 => cases b2 <;> simp [matchesF, happ, hex, ha]
  · simp [scanFilters, ha]

theorem scanFilters_eq_find (active : String → Bool) (c : List ℕ) : ∀ fs : List Filt,
    scanFilters active c fs = (fs.find? fun f => active f.id && matchesF f c).map Filt.name := by
  intro fs
  induction fs with
  | nil => rfl
  | cons f fs ih =>
    rw [scanFilters_cons]
    by_cases h : (active f.id && matchesF f c) = true
    · rw [if_pos h, List.find?_cons_of_pos (p := fun f => active f.id && matchesF f c) fs h]
      rfl
    · rw [if_neg h, List.find?_cons_of_neg (p := fun f => active f.id && matchesF f c) fs h, ih]

theorem scan_isNone_iff (active : String → Bool) (c : List ℕ) (fs : List Filt) :
    scanFilters active c fs = none ↔ ∀ f ∈ fs, ¬(active f.id && matchesF f c) = true := by
  rw [scanFilters_eq_find, Option.map_eq_none', List.find?_eq_none]

theorem survivorship_fst (fs : List Filt) (active : String → Bool) :
    ∀ boxes : List (List ℕ), (survivorship fs active boxes).1 =
      boxes.filterMap fun c => (scanFilters active c fs).map fun nm => (c, nm) := by
  intro boxes
  induction boxes with
  | nil => rfl
  | cons c rest ih =>
    simp only [survivorship]
    cases h : scanFilters active c fs <;> simp [h, List.filterMap_cons, ih]

theorem survivorship_snd (fs : List Filt) (active : String → Bool) :
    ∀ boxes : List (List ℕ), (survivorship fs active boxes).2 =
      boxes.filter fun c => (scanFilters active c fs).isNone := by
  intro boxes
  induction boxes with
  | nil => rfl
  | cons c rest ih =>
    simp only [survivorship]
    cases h : scanFilters active c fs <;> simp [h, List.filter_cons, ih]

theorem dynamicPass_snd (active : String → Bool) : ∀ (fs : List Filt) (pool : List (List ℕ)),
    (dynamicPass active fs pool).2 =
      pool.filter fun c => fs.all fun f => !(active f.id && matchesF f c) := by
  intro fs
  induction fs with
  | nil =>
    intro pool
    simp [dynamicPass]
  | cons f fs ih =>
    intro pool
    simp only [dynamicPass]
    by_cases ha : active f.id
    · rw [if_pos ha, ih, List.filter_filter]
      apply List.filter_congr
      intro c _
      simp [ha, Bool.and_comm]
    · rw [if_neg ha, ih]
      apply List.filter_congr
      intro c _
      simp [ha]

theorem dynamicPass_counts (active : String → Bool) :
    ∀ (fs : List Filt) (pool boxes : List (List ℕ)), pool.Sublist boxes →
      List.Forall₂ (fun f p => (p : String × ℕ).2 ≤ initCount f boxes) fs
        (dynamicPass active fs pool).1 := by
  intro fs
  induction fs with
  | nil => intro pool boxes _; exact List.Forall₂.nil
  | cons f fs ih =>
    intro pool boxes hsub
    simp only [dynamicPass]
    refine List.Forall₂.cons ?_ (ih _ boxes ?_)
    · by_cases ha : active f.id
      · simp only [if_pos ha]
        exact hsub.countP_le _
      · simp [ha]
    · by_cases ha : active f.id
      · simp only [if_pos ha]
        exact (List.filter_sublist pool).trans hsub
      · simp only [if_neg ha]
        exact hsub

theorem scanFilters_congr (active : String → Bool) (c : List ℕ) :
    ∀ {l₁ l₂ : List Filt},
      List.Forall₂ (fun f g => f.id = g.id ∧ f.name = g.name ∧ matchesF f c = matchesF g c) l₁ l₂ →
      scanFilters active c l₁ = scanFilters active c l₂ := by
  intro l₁ l₂ h
  induction h with
  | nil => rfl
  | @cons f g l₁' l₂' hfg _hrest ih =>
    rw [scanFilters_cons, scanFilters_cons, hfg.1, hfg.2.1, hfg.2.2, ih]

theorem survivorship_congr (active : String → Bool) {l₁ l₂ : List Filt}
    (h : List.Forall₂
      (fun f g => f.id = g.id ∧ f.name = g.name ∧ ∀ c, matchesF f c = matchesF g c) l₁ l₂) :
    ∀ boxes : List (List ℕ), survivorship l₁ active boxes = survivorship l₂ active boxes := by
  have hscan : ∀ c, scanFilters active c l₁ = scanFilters active c l₂ := fun c =>
    scanFilters_congr active c (h.imp fun a b hfg => ⟨hfg.1, hfg.2.1, hfg.2.2 c⟩)
  intro boxes
  induction boxes with
  | nil => rfl
  | cons c rest ih => simp only [survivorship, hscan, ih]

theorem dynamicPass_congr (active : String → Bool) {l₁ l₂ : List Filt}
    (h : List.Forall₂ (fun f g => f.id = g.id ∧ ∀ c, matchesF f c = matchesF g c) l₁ l₂) :
    ∀ pool : List (List ℕ), dynamicPass active l₁ pool = dynamicPass active l₂ pool := by
  induction h with
  | nil => intro _; rfl
  | @cons f g l₁' l₂' hfg _hrest ih =>
    intro pool
    have h1 : (pool.countP fun c => matchesF f c) = pool.countP fun c => matchesF g c :=
      List.countP_congr (fun c _ => by rw [hfg.2 c])
    have h2 : (pool.filter fun c => !matchesF f c) = pool.filter fun c => !matchesF g c :=
      List.filter_congr (fun c _ => by rw [hfg.2 c])
    simp only [dynamicPass, hfg.1, h1, h2, ih]

theorem matchesF_patchFalse {f : Filt} {c₀ : List ℕ} (hr : raisesAt f c₀) :
    ∀ c, matchesF (patchFalse f c₀) c = matchesF f c := by
  intro c
  by_cases hc : c = c₀
  · subst hc
    have hpatch : (patchFalse f c).applicable_code c = some false := by
      simp [patchFalse]
    rcases hr with h | ⟨h1, h2⟩
    · rw [matchesF, hpatch, matchesF, h]
    · rw [matchesF, hpatch, matchesF, h1, h2]
      rfl
  · have hpatch : (patchFalse f c₀).applicable_code c = f.applicable_code c := by
      simp [patchFalse, hc]
    rw [matchesF, hpatch, matchesF]
    rfl

theorem raisesAt_not_matches {f : Filt} {c₀ : List ℕ} (hr : raisesAt f c₀) :
    matchesF f c₀ = false := by
  rcases hr with h | ⟨h1, h2⟩
  · rw [matchesF, h]
  · rw [matchesF, h1, h2]
    rfl

/-- The pointwise relation between `l₁ ++ f :: l₂` and the same list with `f`
patched at `c₀`. -/
theorem forall₂_patch (f : Filt) (c₀ : List ℕ) (hr : raisesAt f c₀) (l₁ l₂ : List Filt) :
    List.Forall₂
      (fun a b => a.id = b.id ∧ a.name = b.name ∧ ∀ c, matchesF a c = matchesF b c)
      (l₁ ++ f :: l₂) (l₁ ++ patchFalse f c₀ :: l₂) := by
  refine List.rel_append (List.forall₂_same.2 ?_) ?_
  · intro a _
    exact ⟨rfl, rfl, fun _ => rfl⟩
  · refine List.Forall₂.cons ⟨rfl, rfl, fun c => (matchesF_patchFalse hr c).symm⟩
      (List.forall₂_same.2 ?_)
    intro a _
    exact ⟨rfl, rfl, fun _ => rfl⟩

/-! ## Lemmas about box normalization and the percentile stage -/

theorem sortDigits_sorted (s : List ℕ) : (sortDigits s).Sorted (· ≤ ·) :=
  List.sorted_insertionSort _ s

theorem sortDigits_perm (s : List ℕ) : (sortDigits s).Perm s :=
  List.perm_insertionSort _ s

theorem sortDigits_eq_of_perm {s t : List ℕ} (h : s.Perm t) : sortDigits s = sortDigits t :=
  List.eq_of_perm_of_sorted ((sortDigits_perm s).trans (h.trans (sortDigits_perm t).symm))
    (sortDigits_sorted s) (sortDigits_sorted t)

theorem lookup_isSome_of_mem_keys :
    ∀ (l : List (List ℕ × ℤ)) (b : List ℕ), b ∈ l.map Prod.fst → (l.lookup b).isSome = true := by
  intro l
  induction l with
  | nil => intro b h; cases h
  | cons a ts ih =>
    obtain ⟨a1, a2⟩ := a
    intro b hb
    by_cases h : (b == a1) = true
    · simp [List.lookup, h]
    · simp only [List.lookup, h]
      refine ih b ?_
      rcases List.mem_cons.1 hb with hEq | hb'
      · exact absurd (beq_iff_eq.2 hEq) h
      · exact hb'

theorem mem_map_fst_filter_zip (S : List (List ℕ)) (pcts : List ℚ)
    (hlen : pcts.length = S.length) (P : ℚ → Bool) (s : List ℕ) :
    s ∈ ((S.zip pcts).filter fun p => P p.2).map Prod.fst ↔
      ∃ j, ∃ _ : j < S.length, S.getD j [] = s ∧ P (pcts.getD j 0) = true := by
  have hziplen : (S.zip pcts).length = S.length := by
    rw [List.length_zip, hlen, Nat.min_self]
  constructor
  · intro h
    obtain ⟨p, hp, hps⟩ := List.mem_map.1 h
    obtain ⟨hpz, hP⟩ := List.mem_filter.1 hp
    obtain ⟨j, hj, hzj⟩ := List.mem_iff_getElem.1 hpz
    have hjS : j < S.length := by rw [← hziplen]; exact hj
    have hjp : j < pcts.length := by rw [hlen]; exact hjS
    rw [List.getElem_zip] at hzj
    refine ⟨j, hjS, ?_, ?_⟩
    · rw [List.getD_eq_getElem _ _ hjS, ← hps, ← hzj]
    · rw [List.getD_eq_getElem _ _ hjp]
      have : p.2 = pcts[j] := by rw [← hzj]
      rw [← this]
      exact hP
  · rintro ⟨j, hjS, hs, hP⟩
    have hjp : j < pcts.length := by rw [hlen]; exact hjS
    have hjz : j < (S.zip pcts).length := by rw [hziplen]; exact hjS
    refine List.mem_map.2 ⟨(S.zip pcts)[j], List.mem_filter.2 ⟨List.getElem_mem _, ?_⟩, ?_⟩
    · rw [List.getElem_zip]
      show P pcts[j] = true
      rw [← List.getD_eq_getElem pcts 0 hjp]
      exact hP
    · rw [List.getElem_zip]
      show S[j] = s
      rw [← List.getD_eq_getElem S [] hjS]
      exact hs

/-! ## Lemmas about the full box enumeration -/

theorem cwr_length (k : ℕ) : ∀ l : List ℕ, (cwr k l).length = Nat.multichoose l.length k := by
  induction k with
  | zero => intro l; simp [cwr, Nat.multichoose_zero_right]
  | succ k ih =>
    intro l
    induction l with
    | nil =>
      show ([] : List (List ℕ)).length = _
      rw [Nat.multichoose_eq]
      simp [Nat.choose_eq_zero_of_lt (by omega : (0 : ℕ) + (k + 1) - 1 < k + 1)]
    | cons x xs ihl =>
      show (cwrAux (cwr k) (x :: xs)).length = _
      simp only [cwrAux, List.length_append, List.length_map]
      rw [ih (x :: xs)]
      have : (cwrAux (cwr k) xs).length = Nat.multichoose xs.length (k + 1) := ihl
      rw [this, List.length_cons, Nat.multichoose_succ_succ, Nat.add_comm]

theorem length_all_boxes : all_boxes_full_enumeration.length = 2002 := by
  rw [all_boxes_full_enumeration, cwr_length, List.length_range, Nat.multichoose_eq]
  decide

/-- Every member of `cwr k l` has length `k` and entries from `l`. -/
theorem cwr_mem_length_and_subset (k : ℕ) : ∀ (l : List ℕ), ∀ ys ∈ cwr k l,
    ys.length = k ∧ ∀ y ∈ ys, y ∈ l := by
  induction k with
  | zero =>
    intro l ys hys
    simp only [cwr, List.mem_singleton] at hys
    subst hys
    simp
  | succ k ih =>
    intro l
    induction l with
    | nil => intro ys hys; simp [cwr, cwrAux] at hys
    | cons x xs ihl =>
      intro ys hys
      rcases List.mem_append.1 hys with h | h
      · obtain ⟨zs, hzs, rfl⟩ := List.mem_map.1 h
        obtain ⟨hlen, hsub⟩ := ih (x :: xs) zs hzs
        refine ⟨by simp [hlen], ?_⟩
        intro y hy
        rcases List.mem_cons.1 hy with rfl | hy
        · exact List.mem_cons_self _ _
        · exact hsub y hy
      · obtain ⟨hlen, hsub⟩ := ihl ys h
        exact ⟨hlen, fun y hy => List.mem_cons_of_mem _ (hsub y hy)⟩

/-- Members of `cwr k l` are non-decreasing when `l` is sorted. -/
theorem cwr_mem_sorted (k : ℕ) : ∀ (l : List ℕ), l.Sorted (· ≤ ·) → ∀ ys ∈ cwr k l,
    ys.Sorted (· ≤ ·) := by
  induction k with
  | zero =>
    intro l _ ys hys
    simp only [cwr, List.mem_singleton] at hys
    subst hys
    simp
  | succ k ih =>
    intro l
    induction l with
    | nil => intro _ ys hys; simp [cwr, cwrAux] at hys
    | cons x xs ihl =>
      intro hsort ys hys
      rcases List.mem_append.1 hys with h | h
      · obtain ⟨zs, hzs, rfl⟩ := List.mem_map.1 h
        refine List.sorted_cons.2 ⟨?_, ih (x :: xs) hsort zs hzs⟩
        intro b hb
        have hbmem := (cwr_mem_length_and_subset k (x :: xs) zs hzs).2 b hb
        rcases List.mem_cons.1 hbmem with rfl | hbmem
        · exact le_refl _
        · exact (List.sorted_cons.1 hsort).1 b hbmem
      · exact ihl (List.sorted_cons.1 hsort).2 ys h

/-- Completeness: every non-decreasing selection from a strictly sorted list
appears in `cwr`. -/
theorem cwr_complete (k : ℕ) : ∀ (l : List ℕ), l.Sorted (· < ·) →
    ∀ ys : List ℕ, ys.Sorted (· ≤ ·) → ys.length = k → (∀ y ∈ ys, y ∈ l) →
    ys ∈ cwr k l := by
  induction k with
  | zero =>
    intro l _ ys _ hlen _
    rw [List.length_eq_zero] at hlen
    subst hlen
    simp [cwr]
  | succ k ih =>
    intro l
    induction l with
    | nil =>
      intro _ ys _ hlen hsub
      rcases ys with _ | ⟨y, ys⟩
      · simp at hlen
      · exact absurd (hsub y (List.mem_cons_self _ _)) (List.not_mem_nil y)
    | cons x xs ihl =>
      intro hsort ys hys hlen hsub
      rcases ys with _ | ⟨y, ys⟩
      · simp at hlen
      · show y :: ys ∈ (cwr k (x :: xs)).map (fun ys => x :: ys) ++ cwrAux (cwr k) xs
        rcases List.mem_cons.1 (hsub y (List.mem_cons_self _ _)) with rfl | hyxs
        · refine List.mem_append_left _ (List.mem_map.2 ⟨ys, ?_, rfl⟩)
          refine ih (y :: xs) hsort ys (List.sorted_cons.1 hys).2 (by simpa using hlen) ?_
          intro z hz
          rcases List.mem_cons.1 (hsub z (List.mem_cons_of_mem _ hz)) with rfl | hzxs
          · exact List.mem_cons_self _ _
          · exact List.mem_cons_of_mem _ hzxs
        · refine List.mem_append_right _ ?_
          have hxy : x < y := (List.sorted_cons.1 hsort).1 y hyxs
          refine ihl (List.sorted_cons.1 hsort).2 (y :: ys) hys hlen ?_
          intro z hz
          rcases List.mem_cons.1 (hsub z hz) with rfl | hzxs
          · -- z = x would make x ≥ y through sortedness of y :: ys, contradiction
            exfalso
            rcases List.mem_cons.1 hz with rfl | hzys
            · exact lt_irrefl _ hxy
            · exact absurd ((List.sorted_cons.1 hys).1 _ hzys) (by omega)
          · exact hzxs

/-- `cwr` over a strictly sorted list has no duplicates. -/
theorem cwr_nodup (k : ℕ) : ∀ (l : List ℕ), l.Sorted (· < ·) → (cwr k l).Nodup := by
  induction k with
  | zero => intro l _; simp [cwr]
  | succ k ih =>
    intro l
    induction l with
    | nil => intro _; simp [cwr, cwrAux]
    | cons x xs ihl =>
      intro hsort
      show ((cwr k (x :: xs)).map (fun ys => x :: ys) ++ cwrAux (cwr k) xs).Nodup
      rw [List.nodup_append]
      refine ⟨List.Nodup.map ?_ (ih (x :: xs) hsort), ihl (List.sorted_cons.1 hsort).2, ?_⟩
      · intro a b hEq
        simpa using hEq
      · intro ys hys hys2
        obtain ⟨ws, _, rfl⟩ := List.mem_map.1 hys
        have h2 := cwr_mem_length_and_subset (k + 1) xs (x :: ws) hys2
        have hx : x ∈ xs := h2.2 x (List.mem_cons_self _ _)
        exact absurd ((List.sorted_cons.1 hsort).1 x hx) (lt_irrefl x)

/-! ## Remaining helper lemmas -/

theorem sortDigits_mem_all_boxes {s : List ℕ} (hlen : s.length = 5)
    (hdig : ∀ d ∈ s, d < 10) : sortDigits s ∈ all_boxes_full_enumeration := by
  refine cwr_complete 5 (List.range 10) (by decide) (sortDigits s) (sortDigits_sorted s) ?_ ?_
  · rw [(sortDigits_perm s).length_eq, hlen]
  · intro y hy
    rw [List.mem_range]
    exact hdig y ((sortDigits_perm s).subset hy)

theorem keys_build_global :
    build_global_box_percentiles.map Prod.fst = all_boxes_full_enumeration := by
  rw [build_global_box_percentiles]
  apply List.map_fst_zip
  rw [List.length_map, length_percentile_ranks, List.length_map]

theorem scan_eq_some_iff (active : String → Bool) (c : List ℕ) :
    ∀ (fs : List Filt) (nm : String), scanFilters active c fs = some nm ↔
      ∃ l₁ f l₂, fs = l₁ ++ f :: l₂ ∧ active f.id = true ∧ matchesF f c = true ∧
        f.name = nm ∧ ∀ g ∈ l₁, ¬(active g.id = true ∧ matchesF g c = true) := by
  intro fs
  induction fs with
  | nil =>
    intro nm
    constructor
    · intro h
      cases h
    · rintro ⟨l₁, f, l₂, hEq, -⟩
      cases l₁ <;> simp at hEq
  | cons g gs ih =>
    intro nm
    rw [scanFilters_cons]
    by_cases h : (active g.id && matchesF g c) = true
    · rw [if_pos h]
      rw [Bool.and_eq_true] at h
      constructor
      · intro hsome
        exact ⟨[], g, gs, rfl, h.1, h.2, Option.some.inj hsome, by simp⟩
      · rintro ⟨l₁, f, l₂, hEq, hact, hm, hnm, hfirst⟩
        cases l₁ with
        | nil =>
          simp only [List.nil_append, List.cons.injEq] at hEq
          rw [← hnm, ← hEq.1]
        | cons g' l₁' =>
          simp only [List.cons_append, List.cons.injEq] at hEq
          exact absurd ⟨hEq.1 ▸ h.1, hEq.1 ▸ h.2⟩ (hfirst g' (List.mem_cons_self _ _))
    · rw [if_neg h]
      rw [ih nm]
      constructor
      · rintro ⟨l₁, f, l₂, hEq, hact, hm, hnm, hfirst⟩
        refine ⟨g :: l₁, f, l₂, by rw [List.cons_append, hEq], hact, hm, hnm, ?_⟩
        intro g' hg'
        rcases List.mem_cons.1 hg' with rfl | hg'
        · intro hcon
          exact h (by rw [hcon.1, hcon.2]; rfl)
        · exact hfirst g' hg'
      · rintro ⟨l₁, f, l₂, hEq, hact, hm, hnm, hfirst⟩
        cases l₁ with
        | nil =>
          simp only [List.nil_append, List.cons.injEq] at hEq
          exact absurd (by rw [hEq.1, hact, hm]; rfl) h
        | cons g' l₁' =>
          simp only [List.cons_append, List.cons.injEq] at hEq
          refine ⟨l₁', f, l₂, hEq.2, hact, hm, hnm, ?_⟩
          intro g'' hg''
          exact hfirst g'' (List.mem_cons_of_mem _ hg'')

theorem scan_later_irrelevant (active : String → Bool) (c : List ℕ) :
    ∀ (l₁ : List Filt) (f : Filt) (l₂ l₂' : List Filt),
      active f.id = true → matchesF f c = true →
      scanFilters active c (l₁ ++ f :: l₂) = scanFilters active c (l₁ ++ f :: l₂') := by
  intro l₁
  induction l₁ with
  | nil =>
    intro f l₂ l₂' ha hm
    rw [List.nil_append, List.nil_append, scanFilters_cons, scanFilters_cons,
      if_pos (by rw [ha, hm]; rfl), if_pos (by rw [ha, hm]; rfl)]
  | cons g l₁' ih =>
    intro f l₂ l₂' ha hm
    rw [List.cons_append, List.cons_append, scanFilters_cons, scanFilters_cons,
      ih f l₂ l₂' ha hm]

/-! ## The claims -/

/-- C1: for every candidate pool, filter list and activation state, the
survivors of the first-match-wins survivorship pass coincide with the final
working pool at the end of the sequential dynamic-count pass, whether or not
filters with zero initial count are hidden from the dynamic pass. -/
theorem survivors_match_dynamic_pool (fs : List Filt) (active : String → Bool)
    (boxes : List (List ℕ)) (hz : Bool) :
    (survivorship fs active boxes).2 =
      (dynamicPass active (displayFilters fs boxes hz) boxes).2 := by
  rw [survivorship_snd, dynamicPass_snd]
  apply List.filter_congr
  intro c hc
  apply bool_eq_of_iff
  rw [Option.isNone_iff_eq_none, scan_isNone_iff, List.all_eq_true]
  have hnot : ∀ b : Bool, ((!b) = true) = (¬b = true) := by
    intro b
    cases b <;> simp
  simp only [hnot]
  constructor
  · intro h f hf
    apply h
    have hf' : f ∈ List.insertionSort (dispLe boxes) fs := by
      cases hz with
      | false => simpa [displayFilters] using hf
      | true =>
        have hf2 : f ∈ List.insertionSort (dispLe boxes) fs ∧ 0 < initCount f boxes := by
          simpa [displayFilters] using hf
        exact hf2.1
    exact (List.perm_insertionSort (dispLe boxes) fs).mem_iff.1 hf'
  · intro h f hf
    by_cases hmf : matchesF f c = true
    · have hf' : f ∈ List.insertionSort (dispLe boxes) fs :=
        (List.perm_insertionSort (dispLe boxes) fs).mem_iff.2 hf
      have hcount : 0 < initCount f boxes := by
        rw [initCount]
        by_contra hcon
        have h0 : (boxes.countP fun c => matchesF f c) = 0 := by omega
        rw [List.countP_eq_zero] at h0
        exact absurd hmf (h0 c hc)
      have hfd : f ∈ displayFilters fs boxes hz := by
        cases hz with
        | false => simpa [displayFilters] using hf'
        | true =>
          simp only [displayFilters, if_pos rfl]
          exact List.mem_filter.2 ⟨hf', by simpa using hcount⟩
      exact h f hfd
    · simp [hmf]

/-- C2: a straight is kept by the Primary Percentile stage iff its local-pool
rounded percentile lands in a configured zone or the precomputed global
rounded percentile of its box form does (union semantics); moreover the box
form of any 5-digit straight is a key of the precomputed global map. -/
theorem ppf_union_semantics (zones : List (ℤ × ℤ)) (S : List (List ℕ)) (i : ℕ)
    (hi : i < S.length) (hlen : (S.getD i []).length = 5)
    (hdig : ∀ d ∈ S.getD i [], d < 10) :
    (S.getD i [] ∈ straights_after_ppf zones S ↔
      in_any_zone zones (pyRound
        ((percentile_ranks (S.map fun s => (s.sum : ℤ))).getD i 0)) = true ∨
      in_any_zone zones (GLOBAL_BOX_PCT (sortDigits (S.getD i []))) = true) ∧
    sortDigits (S.getD i []) ∈ all_boxes_full_enumeration ∧
    (build_global_box_percentiles.lookup (sortDigits (S.getD i []))).isSome = true := by
  have hbox : sortDigits (S.getD i []) ∈ all_boxes_full_enumeration :=
    sortDigits_mem_all_boxes hlen hdig
  have hmemS : S.getD i [] ∈ S := by
    rw [List.getD_eq_getElem S [] hi]
    exact List.getElem_mem _
  refine ⟨?_, hbox, ?_⟩
  swap
  · apply lookup_isSome_of_mem_keys
    rw [keys_build_global]
    exact hbox
  · simp only [straights_after_ppf]
    rw [mem_setSorted, List.mem_append]
    have hplen : (percentile_ranks (S.map fun s => (s.sum : ℤ))).length = S.length := by
      rw [length_percentile_ranks, List.length_map]
    rw [mem_map_fst_filter_zip S _ hplen (fun q => in_any_zone zones (pyRound q))]
    constructor
    · rintro (⟨j, hj, hsj, hPj⟩ | hglob)
      · left
        have hv : (S.map fun s => ((s.sum : ℤ))).getD j 0 =
            (S.map fun s => ((s.sum : ℤ))).getD i 0 := by
          rw [List.getD_eq_getElem _ _ (by rw [List.length_map]; exact hj),
            List.getD_eq_getElem _ _ (by rw [List.length_map]; exact hi),
            List.getElem_map, List.getElem_map]
          have hSji : S[j] = S[i] := by
            rw [← List.getD_eq_getElem S [] hj, ← List.getD_eq_getElem S [] hi, hsj]
          rw [hSji]
        have hfj := percentile_ranks_getD (S.map fun s => ((s.sum : ℤ))) j
          (by rw [List.length_map]; exact hj)
        have hfi := percentile_ranks_getD (S.map fun s => ((s.sum : ℤ))) i
          (by rw [List.length_map]; exact hi)
        have hpeq : (percentile_ranks (S.map fun s => ((s.sum : ℤ)))).getD j 0 =
            (percentile_ranks (S.map fun s => ((s.sum : ℤ)))).getD i 0 := by
          rw [hfj, hfi, hv]
        rw [← hpeq]
        exact hPj
      · exact Or.inr (List.mem_filter.1 hglob).2
    · rintro (hP | hg)
      · exact Or.inl ⟨i, hi, rfl, hP⟩
      · exact Or.inr (List.mem_filter.2 ⟨hmemS, hg⟩)

/-- Witness for C2 at the concrete pool `[[0,0,0,0,0]]` with the app's fixed
zone configuration. -/
theorem ppf_union_semantics_witness :
    (0 : ℕ) < ([[0, 0, 0, 0, 0]] : List (List ℕ)).length ∧
      (([[0, 0, 0, 0, 0]] : List (List ℕ)).getD 0 []).length = 5 ∧
      (∀ d ∈ ([[0, 0, 0, 0, 0]] : List (List ℕ)).getD 0 [], d < 10) ∧
      sortDigits (([[0, 0, 0, 0, 0]] : List (List ℕ)).getD 0 []) ∈ all_boxes_full_enumeration :=
  ⟨by decide, by decide, by decide,
    (ppf_union_semantics ZONES [[0, 0, 0, 0, 0]] 0 (by decide) (by decide) (by decide)).2.1⟩

/-- C3: the percentile ranker gives every maximal run of equal input values
one identical percentile, namely the average 0-indexed sorted rank of the run
divided by `max(n-1,1)` and scaled by 100; in particular `[5,5,5]` maps to
`[50.0, 50.0, 50.0]`. -/
theorem percentile_tie_formula :
    (∀ (values : List ℤ) (i : ℕ), i < values.length →
        (percentile_ranks values).getD i 0 =
          pctOf values.length (countLt values (values.getD i 0))
            (countLt values (values.getD i 0) + countEq values (values.getD i 0) - 1)) ∧
    (∀ (values : List ℤ) (i j : ℕ), i < values.length → j < values.length →
        values.getD i 0 = values.getD j 0 →
        (percentile_ranks values).getD i 0 = (percentile_ranks values).getD j 0) ∧
    percentile_ranks [5, 5, 5] = [50, 50, 50] := by
  refine ⟨fun values i hi => percentile_ranks_getD values i hi, ?_, ?_⟩
  · intro values i j hi hj hv
    rw [percentile_ranks_getD values i hi, percentile_ranks_getD values j hj, hv]
  · refine List.ext_getElem (by rw [length_percentile_ranks]; rfl) ?_
    intro i h1 h2
    have hi3 : i < 3 := by simpa using h2
    have hD := percentile_ranks_getD [5, 5, 5] i (by simpa using hi3)
    have hval : ([5, 5, 5] : List ℤ).getD i 0 = 5 := by
      interval_cases i <;> rfl
    rw [hval] at hD
    have hc1 : countLt [5, 5, 5] 5 = 0 := rfl
    have hc2 : countEq [5, 5, 5] 5 = 3 := rfl
    rw [hc1, hc2, List.getD_eq_getElem _ _ h1] at hD
    rw [hD]
    have hR : ([50, 50, 50] : List ℚ)[i] = 50 := by
      interval_cases i <;> rfl
    rw [hR, pctOf]
    norm_num

/-- Witness for C3's formula at `[5,5,5]`, position 0. -/
theorem percentile_tie_formula_witness :
    (0 : ℕ) < ([5, 5, 5] : List ℤ).length ∧
      (percentile_ranks [5, 5, 5]).getD 0 0 =
        pctOf ([5, 5, 5] : List ℤ).length
          (countLt [5, 5, 5] (([5, 5, 5] : List ℤ).getD 0 0))
          (countLt [5, 5, 5] (([5, 5, 5] : List ℤ).getD 0 0) +
            countEq [5, 5, 5] (([5, 5, 5] : List ℤ).getD 0 0) - 1) :=
  ⟨by decide, percentile_tie_formula.1 [5, 5, 5] 0 (by decide)⟩

/-- C4 counterexample: the survivorship loop runs in the loaded filter order,
not in the display order.  With filters loaded as `[A, B]` where `B` has the
larger initial count, the display order is `[B, A]`; candidate `[0]` is
recorded as eliminated by `"A"`, while the first active display-order match
is `"B"`. -/
theorem survivorship_order_counterexample :
    ((survivorship
        [⟨"1", "A", fun _ => some true, fun c => some (c = [0]), true⟩,
          ⟨"2", "B", fun _ => some true, fun _ => some true, true⟩]
        (fun _ => true) [[0], [1]]).1 = [([0], "A"), ([1], "B")]) ∧
    ((displayFilters
        [⟨"1", "A", fun _ => some true, fun c => some (c = [0]), true⟩,
          ⟨"2", "B", fun _ => some true, fun _ => some true, true⟩]
        [[0], [1]] true).map Filt.name = ["B", "A"]) ∧
    (scanFilters (fun _ => true) [0]
        (displayFilters
          [⟨"1", "A", fun _ => some true, fun c => some (c = [0]), true⟩,
            ⟨"2", "B", fun _ => some true, fun _ => some true, true⟩]
          [[0], [1]] true) = some "B") ∧
    ("A" : String) ≠ "B" :=
  ⟨rfl, rfl, rfl, by decide⟩

/-- C4 (amended): in the survivorship pass the filters are evaluated in the
loaded filter-list order; the first active filter whose applicable and
elimination expressions are both true eliminates the candidate, its name is
the one recorded, and later filters cannot affect that candidate. -/
theorem survivorship_first_match_load_order (fs : List Filt) (active : String → Bool)
    (boxes : List (List ℕ)) :
    ((survivorship fs active boxes).1 =
        boxes.filterMap fun c => (scanFilters active c fs).map fun nm => (c, nm)) ∧
    ((survivorship fs active boxes).2 =
        boxes.filter fun c => (scanFilters active c fs).isNone) ∧
    (∀ (c : List ℕ) (nm : String), scanFilters active c fs = some nm ↔
        ∃ l₁ f l₂, fs = l₁ ++ f :: l₂ ∧ active f.id = true ∧ matchesF f c = true ∧
          f.name = nm ∧ ∀ g ∈ l₁, ¬(active g.id = true ∧ matchesF g c = true)) ∧
    (∀ (c : List ℕ) (l₁ : List Filt) (f : Filt) (l₂ l₂' : List Filt),
        active f.id = true → matchesF f c = true →
        scanFilters active c (l₁ ++ f :: l₂) = scanFilters active c (l₁ ++ f :: l₂')) :=
  ⟨survivorship_fst fs active boxes, survivorship_snd fs active boxes,
    fun c nm => scan_eq_some_iff active c fs nm,
    fun c l₁ f l₂ l₂' => scan_later_irrelevant active c l₁ f l₂ l₂'⟩

/-- Witness for C4's later-filter irrelevance at a concrete filter. -/
theorem survivorship_first_match_load_order_witness :
    ((fun _ : String => true) (Filt.id ⟨"1", "A", fun _ => some true, fun _ => some true, true⟩)
        = true) ∧
      matchesF ⟨"1", "A", fun _ => some true, fun _ => some true, true⟩ [0] = true ∧
      scanFilters (fun _ => true) [0]
          ([] ++ ⟨"1", "A", fun _ => some true, fun _ => some true, true⟩ :: []) =
        scanFilters (fun _ => true) [0]
          ([] ++ ⟨"1", "A", fun _ => some true, fun _ => some true, true⟩ ::
            [⟨"1", "A", fun _ => some true, fun _ => some true, true⟩]) :=
  ⟨rfl, rfl,
    (survivorship_first_match_load_order [] (fun _ => true) []).2.2.2 [0] []
      ⟨"1", "A", fun _ => some true, fun _ => some true, true⟩ []
      [⟨"1", "A", fun _ => some true, fun _ => some true, true⟩] rfl rfl⟩

/-- C5 counterexample: with an empty zone list the zone test does not keep
every value — it rejects 0 (and every other input). -/
theorem empty_zones_counterexample : in_any_zone [] 0 = false := rfl

/-- C5 (amended): with an empty configured zone list `_in_any_zone` returns
false for every input, so every candidate is filtered out at the percentile
stage (keep-none, not keep-all). -/
theorem empty_zones_keep_none :
    (∀ pct : ℤ, in_any_zone [] pct = false) ∧
    (∀ straights : List (List ℕ), straights_after_ppf [] straights = []) := by
  refine ⟨fun _ => rfl, ?_⟩
  intro S
  simp only [straights_after_ppf]
  have h1 : ((S.zip (percentile_ranks (S.map fun s => (s.sum : ℤ)))).filter
      fun p => in_any_zone [] (pyRound p.2)) = [] := by
    simp [in_any_zone]
  have h2 : (S.filter fun s => in_any_zone [] (GLOBAL_BOX_PCT (sortDigits s))) = [] := by
    simp [in_any_zone]
  rw [h1, h2]
  rfl

/-- C6: along the dynamic elimination sequence every displayed filter's
dynamic count is at most its initial count over the full box pool. -/
theorem dynamic_le_initial (fs : List Filt) (active : String → Bool)
    (boxes : List (List ℕ)) (hz : Bool) :
    List.Forall₂ (fun f p => (p : String × ℕ).2 ≤ initCount f boxes)
      (displayFilters fs boxes hz)
      (dynamicPass active (displayFilters fs boxes hz) boxes).1 :=
  dynamicPass_counts active _ boxes boxes (List.Sublist.refl boxes)

/-- C7: the PairPool Generator contains every distinct ordering of
`{sd, a1, a2, b1, b2}` for each seed digit and pair combination, has no
duplicates, is sorted, and every output straight is a permutation of some
base. -/
theorem permutation_pool_complete_sorted (seed : List ℕ) (ga gb : List (ℕ × ℕ)) :
    (∀ sd ∈ seed, ∀ a ∈ ga, ∀ b ∈ gb, ∀ p : List ℕ,
        p.Perm [sd, a.1, a.2, b.1, b.2] → p ∈ generate_permutation_pool seed ga gb) ∧
    (generate_permutation_pool seed ga gb).Nodup ∧
    (generate_permutation_pool seed ga gb).Pairwise (fun x y => lexLt x y = true) ∧
    (∀ p ∈ generate_permutation_pool seed ga gb,
        ∃ sd ∈ seed, ∃ a ∈ ga, ∃ b ∈ gb, p.Perm [sd, a.1, a.2, b.1, b.2]) := by
  refine ⟨?_, nodup_setSorted _, pairwise_setSorted _, ?_⟩
  · intro sd hsd a ha b hb p hp
    rw [generate_permutation_pool, mem_setSorted]
    refine List.mem_flatMap.2 ⟨sd, hsd, List.mem_flatMap.2 ⟨a, ha, List.mem_flatMap.2
      ⟨b, hb, ?_⟩⟩⟩
    rw [uniquePerms, List.mem_dedup, List.mem_permutations]
    exact hp
  · intro p hp
    rw [generate_permutation_pool, mem_setSorted] at hp
    obtain ⟨sd, hsd, h1⟩ := List.mem_flatMap.1 hp
    obtain ⟨a, ha, h2⟩ := List.mem_flatMap.1 h1
    obtain ⟨b, hb, h3⟩ := List.mem_flatMap.1 h2
    rw [uniquePerms, List.mem_dedup, List.mem_permutations] at h3
    exact ⟨sd, hsd, a, ha, b, hb, h3⟩

/-- Witness for C7: the straight `[7,6,1,1,0]`, a permutation of the base
`1 + 01 + 67`, is in the pool generated from seed digit 1. -/
theorem permutation_pool_complete_sorted_witness :
    (1 : ℕ) ∈ [1] ∧ ((0, 1) : ℕ × ℕ) ∈ [((0, 1) : ℕ × ℕ)] ∧
      ((6, 7) : ℕ × ℕ) ∈ [((6, 7) : ℕ × ℕ)] ∧
      ([7, 6, 1, 1, 0] : List ℕ).Perm [1, 0, 1, 6, 7] ∧
      [7, 6, 1, 1, 0] ∈ generate_permutation_pool [1] [(0, 1)] [(6, 7)] :=
  ⟨by decide, by decide, by decide, by decide,
    (permutation_pool_complete_sorted [1] [(0, 1)] [(6, 7)]).1 1 (by decide) (0, 1) (by decide)
      (6, 7) (by decide) [7, 6, 1, 1, 0] (by decide)⟩

/-- C8: the Universe Enumerator yields exactly 2002 boxes, pairwise distinct,
each of length 5 with non-decreasing digits 0-9. -/
theorem universe_enumeration_invariant :
    all_boxes_full_enumeration.length = 2002 ∧
    all_boxes_full_enumeration.Nodup ∧
    ∀ b ∈ all_boxes_full_enumeration,
      b.length = 5 ∧ b.Sorted (· ≤ ·) ∧ ∀ d ∈ b, d < 10 := by
  refine ⟨length_all_boxes, cwr_nodup 5 (List.range 10) (by decide), ?_⟩
  intro b hb
  obtain ⟨hlen, hsub⟩ := cwr_mem_length_and_subset 5 (List.range 10) b hb
  refine ⟨hlen, cwr_mem_sorted 5 (List.range 10) (by decide) b hb, ?_⟩
  intro d hd
  have := hsub d hd
  rwa [List.mem_range] at this

/-- Witness for C8 at the first box of the universe. -/
theorem universe_enumeration_invariant_witness :
    [0, 0, 0, 0, 0] ∈ all_boxes_full_enumeration ∧
      (([0, 0, 0, 0, 0] : List ℕ).length = 5 ∧
        ([0, 0, 0, 0, 0] : List ℕ).Sorted (· ≤ ·) ∧ ∀ d ∈ [0, 0, 0, 0, 0], d < 10) :=
  ⟨by decide, universe_enumeration_invariant.2.2 [0, 0, 0, 0, 0] (by decide)⟩

/-- C9: a runtime evaluation failure on one (filter, candidate) pair is
exactly "predicate does not match" for that pair: the filter does not
eliminate that candidate, and replacing the failing evaluation by an ordinary
false leaves the survivorship pass, every initial count, and the dynamic pass
unchanged. -/
theorem eval_failure_isolated (f : Filt) (c₀ : List ℕ) (hr : raisesAt f c₀) :
    matchesF f c₀ = false ∧
    (∀ (l₁ l₂ : List Filt) (active : String → Bool) (boxes : List (List ℕ)),
        survivorship (l₁ ++ f :: l₂) active boxes =
          survivorship (l₁ ++ patchFalse f c₀ :: l₂) active boxes) ∧
    (∀ boxes : List (List ℕ), initCount f boxes = initCount (patchFalse f c₀) boxes) ∧
    (∀ (l₁ l₂ : List Filt) (active : String → Bool) (pool : List (List ℕ)),
        dynamicPass active (l₁ ++ f :: l₂) pool =
          dynamicPass active (l₁ ++ patchFalse f c₀ :: l₂) pool) := by
  refine ⟨raisesAt_not_matches hr, ?_, ?_, ?_⟩
  · intro l₁ l₂ active boxes
    exact survivorship_congr active (forall₂_patch f c₀ hr l₁ l₂) boxes
  · intro boxes
    rw [initCount, initCount]
    exact List.countP_congr (fun c _ => by rw [matchesF_patchFalse hr c])
  · intro l₁ l₂ active pool
    exact dynamicPass_congr active
      ((forall₂_patch f c₀ hr l₁ l₂).imp fun a b h => ⟨h.1, h.2.2⟩) pool

/-- Witness for C9 at a filter whose guard raises on candidate `[0]`. -/
theorem eval_failure_isolated_witness :
    raisesAt ⟨"9", "X", fun c => if c = [0] then none else some true,
        fun _ => some true, true⟩ [0] ∧
      matchesF ⟨"9", "X", fun c => if c = [0] then none else some true,
        fun _ => some true, true⟩ [0] = false :=
  ⟨Or.inl rfl,
    (eval_failure_isolated ⟨"9", "X", fun c => if c = [0] then none else some true,
      fun _ => some true, true⟩ [0] (Or.inl rfl)).1⟩

/-- C10: the specific-combo check sorts the checked string before lookup, so
any two permutations of the same digit multiset receive the same reported
status. -/
theorem check_combo_perm_invariant (eliminated : List (List ℕ × String))
    (survivors : List (List ℕ)) (c₁ c₂ : List ℕ) (h : c₁.Perm c₂) :
    checkStatus eliminated survivors c₁ = checkStatus eliminated survivors c₂ := by
  rw [checkStatus, checkStatus, sortDigits_eq_of_perm h]

/-- Witness for C10 at two permutations of the multiset `{0,0,0,1,2}`. -/
theorem check_combo_perm_invariant_witness :
    ([2, 1, 0, 0, 0] : List ℕ).Perm [0, 0, 0, 1, 2] ∧
      checkStatus [] [] [2, 1, 0, 0, 0] = checkStatus [] [] [0, 0, 0, 1, 2] :=
  ⟨by decide, check_combo_perm_invariant [] [] [2, 1, 0, 0, 0] [0, 0, 0, 1, 2] (by decide)⟩

end App
